import Mathlib

set_option maxRecDepth 16384

/-!
Verification of the fast reciprocal square root routine (`inv_sqrt`) and its
driver from `src/main.c`.

The program operates on IEEE-754 binary32 values.  We model a float by its
32-bit pattern, a natural number `b < 2^32`, and give every arithmetic step of
the source exact semantics:

* a finite pattern denotes the rational `± mag149 b / 2^149`;
* each C float operation (`*`, `-`, `/`) first forms the exact rational result
  and then rounds it to binary32 with round-to-nearest, ties-to-even,
  including subnormal, overflow-to-infinity, zero-sign and NaN/∞ rules;
* the pointer-aliasing reinterpretation `*(long *)&y` / `*(float *)&i` is
  modelled, per the design notes of the specification, as the sanctioned
  bit-preserving 32-bit cast: the four bytes of the float are reread as a
  32-bit two's-complement integer and back;
* `i >> 1` on the signed integer is the arithmetic right shift, i.e. floor
  division by two of the two's-complement value.
-/

namespace CRZLib

/-! ## Base-2 logarithm by fuel (kernel-computable) -/

/-- Floor of log₂ computed with an explicit fuel argument so that it is
structurally recursive (and hence evaluable inside the kernel). -/
def log2F : ℕ → ℕ → ℕ
  | 0, _ => 0
  | fuel + 1, n => if n < 2 then 0 else log2F fuel (n / 2) + 1

/-- Floor of log₂ of a positive natural number. -/
def nlog2 (n : ℕ) : ℕ := log2F n n

/-! ## Binary32 bit-pattern views -/

/-- Sign bit of a binary32 bit pattern. -/
def signB (b : ℕ) : Bool := decide (2 ^ 31 ≤ b)

/-- Biased exponent field (8 bits). -/
def expF (b : ℕ) : ℕ := b / 2 ^ 23 % 2 ^ 8

/-- Mantissa (trailing significand) field (23 bits). -/
def manF (b : ℕ) : ℕ := b % 2 ^ 23

def isNanB (b : ℕ) : Bool := decide (expF b = 255 ∧ manF b ≠ 0)

def isInfB (b : ℕ) : Bool := decide (expF b = 255 ∧ manF b = 0)

def isZeroB (b : ℕ) : Bool := decide (expF b = 0 ∧ manF b = 0)

/-- Assemble a bit pattern from sign, exponent field and mantissa field. -/
def mkBits (s : Bool) (E M : ℕ) : ℕ := (if s then 2 ^ 31 else 0) + E * 2 ^ 23 + M

/-- Magnitude of a finite binary32 pattern, scaled by `2^149` so that it is a
natural number: a finite pattern denotes `± mag149 b / 2^149`. -/
def mag149 (b : ℕ) : ℕ :=
  if expF b = 0 then manF b else (2 ^ 23 + manF b) * 2 ^ (expF b - 1)

/-- The canonical quiet NaN produced by arithmetic on invalid operands. -/
def qnanB : ℕ := mkBits false 255 (2 ^ 22)

def infBits (s : Bool) : ℕ := mkBits s 255 0

def zeroBits (s : Bool) : ℕ := mkBits s 0 0

/-- Rational value denoted by a finite bit pattern. -/
def val (b : ℕ) : ℚ := (if signB b then -1 else 1) * (mag149 b : ℚ) / 2 ^ 149

/-- Signed scaled value of a finite bit pattern, an integer. -/
def sval149 (b : ℕ) : ℤ := if signB b then -(mag149 b : ℤ) else (mag149 b : ℤ)

/-! ## Round to nearest, ties to even -/

/-- `rndDiv num den` is `num / den` rounded to the nearest integer, ties to
the even integer. -/
def rndDiv (num den : ℕ) : ℕ :=
  let q := num / den
  let r := num % den
  if den < 2 * r then q + 1 else if 2 * r < den then q else q + q % 2

/-- Floor of log₂ of the positive rational `p / q`. -/
def flog2 (p q : ℕ) : ℤ :=
  if p * 2 ^ nlog2 q < q * 2 ^ nlog2 p then (nlog2 p : ℤ) - nlog2 q - 1
  else (nlog2 p : ℤ) - nlog2 q

/-- Round the positive rational `p / q` to a binary32 pattern with sign `s`,
using round-to-nearest ties-to-even, flushing to signed zero or subnormals
below the normal range and to infinity above it. -/
def encodeRound (s : Bool) (p q : ℕ) : ℕ :=
  let e := flog2 p q
  if e < -126 then
    let m := rndDiv (p * 2 ^ 149) q
    if m < 2 ^ 23 then mkBits s 0 m else mkBits s 1 0
  else
    let num := if 0 ≤ 23 - e then p * 2 ^ (23 - e).toNat else p
    let den := if 0 ≤ 23 - e then q else q * 2 ^ (e - 23).toNat
    let m := rndDiv num den
    let e' := if m = 2 ^ 24 then e + 1 else e
    let m' := if m = 2 ^ 24 then 2 ^ 23 else m
    if 127 < e' then infBits s
    else mkBits s (e' + 127).toNat (m' - 2 ^ 23)

/-! ## The three float operations used by the program -/

/-- Exact binary32 multiplication of two bit patterns. -/
def fmul (a b : ℕ) : ℕ :=
  let s := xor (signB a) (signB b)
  if isNanB a || isNanB b then qnanB
  else if isInfB a then (if isZeroB b then qnanB else infBits s)
  else if isInfB b then (if isZeroB a then qnanB else infBits s)
  else if isZeroB a || isZeroB b then zeroBits s
  else encodeRound s (mag149 a * mag149 b) (2 ^ 149 * 2 ^ 149)

/-- Exact binary32 subtraction `a - b` of two bit patterns. -/
def fsub (a b : ℕ) : ℕ :=
  if isNanB a || isNanB b then qnanB
  else if isInfB a then
    (if isInfB b then (if signB a = signB b then qnanB else infBits (signB a))
     else infBits (signB a))
  else if isInfB b then infBits (!signB b)
  else
    let d : ℤ := sval149 a - sval149 b
    if d = 0 then zeroBits (signB a && !signB b)
    else encodeRound (decide (d < 0)) d.natAbs (2 ^ 149)

/-- Exact binary32 division `a / b` of two bit patterns. -/
def fdiv (a b : ℕ) : ℕ :=
  let s := xor (signB a) (signB b)
  if isNanB a || isNanB b then qnanB
  else if isInfB a then (if isInfB b then qnanB else infBits s)
  else if isInfB b then zeroBits s
  else if isZeroB b then (if isZeroB a then qnanB else infBits s)
  else if isZeroB a then zeroBits s
  else encodeRound s (mag149 a) (mag149 b)

/-! ## Bit reinterpretation (the pointer-aliasing casts)

The C source reads the four bytes of the float as a signed integer and back.
We model the byte view explicitly (little-endian, as on the commodity targets
the source assumes) and the signed reading of the resulting 32-bit word. -/

/-- The four bytes of a 32-bit word, little-endian. -/
def toBytes (b : ℕ) : List ℕ :=
  [b % 2 ^ 8, b / 2 ^ 8 % 2 ^ 8, b / 2 ^ 16 % 2 ^ 8, b / 2 ^ 24 % 2 ^ 8]

/-- Reassemble a 32-bit word from four little-endian bytes. -/
def ofBytes : List ℕ → ℕ
  | [b0, b1, b2, b3] => b0 + 2 ^ 8 * b1 + 2 ^ 16 * b2 + 2 ^ 24 * b3
  | _ => 0

/-- `i = *(long *)&y`: reread the bytes of a float as a 32-bit integer word. -/
def floatBitsToLong (b : ℕ) : ℕ := ofBytes (toBytes b)

/-- `y = *(float *)&i`: reread the bytes of a 32-bit integer word as a float. -/
def longToFloatBits (i : ℕ) : ℕ := ofBytes (toBytes i)

/-- Two's-complement signed value of a 32-bit word. -/
def toSigned (i : ℕ) : ℤ := if 2 ^ 31 ≤ i then (i : ℤ) - 2 ^ 32 else (i : ℤ)

/-! ## The program -/

/-- The magic constant `0x5f3759df` of the source. -/
def MAGIC : ℕ := 0x5f3759df

/-- Bit pattern of the literal `0.5F`. -/
def half : ℕ := 0x3F000000

/-- Bit pattern of the literal `1.5F` (`threehalfs` in the source). -/
def threehalfs : ℕ := 0x3FC00000

/-- Bit pattern of the literal `1.0F`. -/
def one : ℕ := 0x3F800000

/-- Bit pattern of `4.0F`. -/
def four : ℕ := 0x40800000

/-- Arithmetic (sign-propagating) right shift by one of a 32-bit word. -/
def asr1 (i : ℕ) : ℕ := if i < 2 ^ 31 then i / 2 else 2 ^ 31 + i / 2

/-- `x2 = n * 0.5F` of the source. -/
def x2of (n : ℕ) : ℕ := fmul n half

/-- The bit-trick initial estimate: `i = * (long *) &y; i = 0x5f3759df - (i >> 1);
y = * (float *) &i`.  The 32-bit subtraction is two's-complement. -/
def y0of (n : ℕ) : ℕ :=
  longToFloatBits ((MAGIC + 2 ^ 32 - asr1 (floatBitsToLong n)) % 2 ^ 32)

/-- First product `x2 * y` of the Newton step. -/
def vof (n : ℕ) : ℕ := fmul (x2of n) (y0of n)

/-- Second product `(x2 * y) * y` of the Newton step. -/
def tof (n : ℕ) : ℕ := fmul (vof n) (y0of n)

/-- The correction factor `threehalfs - (x2 * y * y)`. -/
def sof (n : ℕ) : ℕ := fsub threehalfs (tof n)

/-- `inv_sqrt` of `src/main.c`, on bit patterns: one bit-trick estimate and a
single Newton–Raphson refinement `y = y * (threehalfs - (x2 * y * y))`. -/
def inv_sqrt (n : ℕ) : ℕ :=
  let x2 := fmul n half
  let y := n
  let i := floatBitsToLong y
  let i1 := (MAGIC + 2 ^ 32 - asr1 i) % 2 ^ 32
  let y1 := longToFloatBits i1
  fmul y1 (fsub threehalfs (fmul (fmul x2 y1) y1))

/-- The float denoted by the literal `3.4` in the call `inv_sqrt(3.4)`:
the decimal `3.4 = 17/5` rounded to binary32 (the intermediate trip through
double rounds to the same pattern, `0x4059999A`). -/
def lit34 : ℕ := encodeRound false 17 5

/-- `printf("%f", x)` prints the value in fixed six-decimal notation: we model
the printed number by its correctly rounded value in micro-units. -/
def printf6 (b : ℕ) : ℤ :=
  (if sval149 b < 0 then -1 else 1) * rndDiv ((sval149 b).natAbs * 10 ^ 6) (2 ^ 149)

/-- The wrapper `main`: prints `1.0F / inv_sqrt(3.4)` with `%f` and returns 0.
Modelled as the pair (printed micro-units, exit status). -/
def main : ℤ × ℕ := (printf6 (fdiv one (inv_sqrt lit34)), 0)

/-- The algorithm exactly as the specification words it: reinterpret the bits
of `n` as a 32-bit signed integer `i0`, form `i1 = MAGIC - (i0 >> 1)` with an
arithmetic right shift (floor division) on the signed value, reinterpret `i1`
back as a float `y0`, and return the single Newton-Raphson refinement
`y0 * (1.5 - 0.5 * n * y0 * y0)` (products associated to the left). -/
def spec_inv_sqrt (n : ℕ) : ℕ :=
  let i0 : ℤ := toSigned (floatBitsToLong n)
  let i1 : ℤ := (MAGIC : ℤ) - i0 / 2
  let y0 : ℕ := longToFloatBits (i1 % 2 ^ 32).toNat
  fmul y0 (fsub threehalfs (fmul (fmul (fmul half n) y0) y0))

theorem inv_sqrt_eq (n : ℕ) : inv_sqrt n = fmul (y0of n) (sof n) := rfl

theorem log2F_spec (fuel : ℕ) :
    ∀ n, 1 ≤ n → n ≤ fuel → 2 ^ log2F fuel n ≤ n ∧ n < 2 ^ (log2F fuel n + 1) := by
  induction fuel with
  | zero => intro n h1 h2; omega
  | succ f ih =>
    intro n h1 h2
    by_cases hn : n < 2
    · have hn1 : n = 1 := by omega
      subst hn1
      simp [log2F]
    · have hrec := ih (n / 2) (by omega) (by omega)
      have hL : log2F (f + 1) n = log2F f (n / 2) + 1 := by
        simp [log2F, hn]
      rw [hL]
      set L := log2F f (n / 2) with hLdef
      have h1' : 2 ^ L ≤ n / 2 := hrec.1
      have h2' : n / 2 < 2 ^ (L + 1) := hrec.2
      have e1 : 2 ^ (L + 1) = 2 * 2 ^ L := by ring
      have e2 : 2 ^ (L + 1 + 1) = 2 * 2 ^ (L + 1) := by ring
      omega

theorem nlog2_le (n : ℕ) (h : 1 ≤ n) : 2 ^ nlog2 n ≤ n :=
  (log2F_spec n n h le_rfl).1

theorem nlog2_lt (n : ℕ) (h : 1 ≤ n) : n < 2 ^ (nlog2 n + 1) :=
  (log2F_spec n n h le_rfl).2

theorem nlog2_eq (n k : ℕ) (h1 : 2 ^ k ≤ n) (h2 : n < 2 ^ (k + 1)) : nlog2 n = k := by
  have hn : 1 ≤ n := le_trans (Nat.one_le_two_pow) h1
  have ha := nlog2_le n hn
  have hb := nlog2_lt n hn
  rcases Nat.lt_trichotomy (nlog2 n) k with h | h | h
  · exfalso
    have : 2 ^ (nlog2 n + 1) ≤ 2 ^ k := Nat.pow_le_pow_right (by norm_num) (by omega)
    omega
  · exact h
  · exfalso
    have : 2 ^ (k + 1) ≤ 2 ^ nlog2 n := Nat.pow_le_pow_right (by norm_num) (by omega)
    omega

/-! ## Bit-field lemmas -/

theorem ofBytes_toBytes (b : ℕ) (h : b < 2 ^ 32) : ofBytes (toBytes b) = b := by
  show b % 2 ^ 8 + 2 ^ 8 * (b / 2 ^ 8 % 2 ^ 8) + 2 ^ 16 * (b / 2 ^ 16 % 2 ^ 8)
      + 2 ^ 24 * (b / 2 ^ 24 % 2 ^ 8) = b
  omega

theorem signB_eq_false {b : ℕ} (h : b < 2 ^ 31) : signB b = false := by
  simp only [signB, decide_eq_false_iff_not]
  omega

theorem signB_eq_true {b : ℕ} (h : 2 ^ 31 ≤ b) : signB b = true := by
  simp only [signB, decide_eq_true_eq]
  omega

theorem lt_of_signB_eq_false {b : ℕ} (h : signB b = false) : b < 2 ^ 31 := by
  simp only [signB, decide_eq_false_iff_not] at h
  omega

theorem expF_mkBits (s : Bool) {E M : ℕ} (hE : E ≤ 255) (hM : M < 2 ^ 23) :
    expF (mkBits s E M) = E := by
  cases s <;> simp only [mkBits, expF, Bool.false_eq_true, if_false, if_true] <;> omega

theorem manF_mkBits (s : Bool) {E M : ℕ} (hM : M < 2 ^ 23) :
    manF (mkBits s E M) = M := by
  cases s <;> simp only [mkBits, manF, Bool.false_eq_true, if_false, if_true] <;> omega

theorem signB_mkBits (s : Bool) {E M : ℕ} (hE : E ≤ 255) (hM : M < 2 ^ 23) :
    signB (mkBits s E M) = s := by
  cases s
  · exact signB_eq_false (by simp only [mkBits, Bool.false_eq_true, if_false]; omega)
  · exact signB_eq_true (by simp only [mkBits, if_true]; omega)

theorem mkBits_lt (s : Bool) {E M : ℕ} (hE : E ≤ 255) (hM : M < 2 ^ 23) :
    mkBits s E M < 2 ^ 32 := by
  cases s <;> simp only [mkBits, Bool.false_eq_true, if_false, if_true] <;> omega

theorem mag149_mkBits (s : Bool) {E M : ℕ} (hE1 : 1 ≤ E) (hE : E ≤ 255) (hM : M < 2 ^ 23) :
    mag149 (mkBits s E M) = (2 ^ 23 + M) * 2 ^ (E - 1) := by
  rw [mag149, expF_mkBits s hE hM, manF_mkBits s hM, if_neg (by omega)]

theorem mag149_pos {b : ℕ} (h : isZeroB b = false) : 1 ≤ mag149 b := by
  simp only [isZeroB, decide_eq_false_iff_not, not_and, ne_eq, not_not] at h
  rw [mag149]
  split
  · rename_i hE
    have := h hE
    omega
  · exact Nat.mul_pos (by omega) (pow_pos (by norm_num) _)

theorem mag149_bounds (b : ℕ) (h1 : 1 ≤ expF b) (h2 : expF b ≤ 255) :
    2 ^ (22 + expF b) ≤ mag149 b ∧ mag149 b < 2 ^ (23 + expF b) := by
  rw [mag149, if_neg (by omega)]
  have hM : manF b < 2 ^ 23 := Nat.mod_lt _ (by norm_num)
  have hE : 22 + expF b = 23 + (expF b - 1) := by omega
  have hE' : 23 + expF b = 24 + (expF b - 1) := by omega
  constructor
  · rw [hE, pow_add]
    exact Nat.mul_le_mul_right _ (by norm_num)
  · rw [hE', pow_add]
    exact (Nat.mul_lt_mul_right (pow_pos (by norm_num) _)).mpr (by omega)

/-- Incrementing the exponent field by one (adding `2^23` to a pattern that is
neither at the top exponent nor about to overflow) doubles the magnitude. -/
theorem mag149_succE (c : ℕ) (h1 : 1 ≤ expF c) (h2 : expF c ≤ 254) (hc : c < 2 ^ 32) :
    expF (c + 2 ^ 23) = expF c + 1 ∧ manF (c + 2 ^ 23) = manF c ∧
    signB (c + 2 ^ 23) = signB c ∧ mag149 (c + 2 ^ 23) = 2 * mag149 c := by
  have hE : expF (c + 2 ^ 23) = expF c + 1 := by
    simp only [expF] at *
    omega
  have hMn : manF (c + 2 ^ 23) = manF c := by
    simp only [manF]
    omega
  have hS : signB (c + 2 ^ 23) = signB c := by
    rcases Nat.lt_or_ge c (2 ^ 31) with h | h
    · have hc2 : c + 2 ^ 23 < 2 ^ 31 := by
        simp only [expF] at h2
        omega
      rw [signB_eq_false h, signB_eq_false hc2]
    · rw [signB_eq_true h, signB_eq_true (by omega)]
  refine ⟨hE, hMn, hS, ?_⟩
  rw [mag149, mag149, hE, hMn, if_neg (by omega), if_neg (by omega)]
  have : expF c + 1 - 1 = (expF c - 1) + 1 := by omega
  rw [this, pow_succ]
  ring

/-- A pattern with any field layout decomposes as sign, exponent, mantissa. -/
theorem bits_decomp {b : ℕ} (h : b < 2 ^ 31) : b = expF b * 2 ^ 23 + manF b := by
  simp only [expF, manF]
  omega

theorem flags_of_normal {c : ℕ} (h1 : 1 ≤ expF c) (h2 : expF c ≤ 254) :
    isNanB c = false ∧ isInfB c = false ∧ isZeroB c = false := by
  refine ⟨?_, ?_, ?_⟩ <;> simp only [isNanB, isInfB, isZeroB, decide_eq_false_iff_not] <;> omega

/-! ## Rounding-division lemmas -/

theorem rndDiv_mul_self {x d : ℕ} (hd : 1 ≤ d) : rndDiv (x * d) d = x := by
  have h1 : x * d / d = x := Nat.mul_div_cancel x (by omega)
  have h2 : x * d % d = 0 := Nat.mul_mod_left x d
  rw [rndDiv]
  simp only [h1, h2]
  rw [if_neg (by omega), if_pos (by omega)]

theorem rndDiv_scale {c n d : ℕ} (hc : 1 ≤ c) : rndDiv (c * n) (c * d) = rndDiv n d := by
  rw [rndDiv, rndDiv]
  simp only [Nat.mul_div_mul_left _ _ (by omega : 0 < c), Nat.mul_mod_mul_left]
  rcases Nat.lt_trichotomy (2 * (n % d)) d with h | h | h
  · rw [if_neg (by nlinarith), if_pos (by nlinarith), if_neg (by omega), if_pos (by omega)]
  · rw [if_neg (by nlinarith), if_neg (by nlinarith), if_neg (by omega), if_neg (by omega)]
  · rw [if_pos (by nlinarith), if_pos (by omega)]

theorem rndDiv_le (num : ℕ) {den : ℕ} (hd : 1 ≤ den) : rndDiv num den ≤ num / den + 1 := by
  rw [rndDiv]
  split
  · omega
  · split <;> omega

/-! ## Further logarithm lemmas -/

theorem nlog2_ge {L p : ℕ} (h : 2 ^ L ≤ p) : L ≤ nlog2 p := by
  have hp : 1 ≤ p := le_trans Nat.one_le_two_pow h
  have h2 := nlog2_lt p hp
  have : 2 ^ L < 2 ^ (nlog2 p + 1) := by omega
  have := (Nat.pow_lt_pow_iff_right (by norm_num : 1 < 2)).mp this
  omega

theorem nlog2_ub {U p : ℕ} (hp : 1 ≤ p) (h : p < 2 ^ U) : nlog2 p < U := by
  have h1 := nlog2_le p hp
  have : 2 ^ nlog2 p < 2 ^ U := by omega
  exact (Nat.pow_lt_pow_iff_right (by norm_num : 1 < 2)).mp this

theorem nlog2_pow (c : ℕ) : nlog2 (2 ^ c) = c :=
  nlog2_eq _ c le_rfl
    (by have := pow_pos (by norm_num : (0:ℕ) < 2) c; rw [pow_succ]; omega)

theorem nlog2_two_mul {p : ℕ} (hp : 1 ≤ p) : nlog2 (2 * p) = nlog2 p + 1 := by
  have h1 := nlog2_le p hp
  have h2 := nlog2_lt p hp
  refine nlog2_eq _ _ ?_ ?_
  · rw [pow_succ]
    omega
  · rw [pow_succ, pow_succ]
    omega

theorem nlog2_mantissa {M k : ℕ} (hM : M < 2 ^ 23) :
    nlog2 ((2 ^ 23 + M) * 2 ^ k) = 23 + k := by
  refine nlog2_eq _ _ ?_ ?_
  · rw [pow_add]
    exact Nat.mul_le_mul_right _ (by omega)
  · rw [show 23 + k + 1 = 24 + k from by omega, pow_add]
    exact (Nat.mul_lt_mul_right (pow_pos (by norm_num) _)).mpr (by omega)

theorem flog2_pow_den {p : ℕ} (hp : 1 ≤ p) (c : ℕ) :
    flog2 p (2 ^ c) = (nlog2 p : ℤ) - c := by
  rw [flog2, nlog2_pow, if_neg]
  push_neg
  calc 2 ^ c * 2 ^ nlog2 p = 2 ^ nlog2 p * 2 ^ c := by ring
  _ ≤ p * 2 ^ c := Nat.mul_le_mul_right _ (nlog2_le p hp)

/-- Lower half of the defining property of `flog2`: the rational `p/q` is at
least `2 ^ flog2 p q`, stated multiplicatively over ℕ. -/
theorem flog2_lb {p q : ℕ} (hp : 1 ≤ p) (hq : 1 ≤ q) (k j : ℕ)
    (h : (k : ℤ) - j = flog2 p q) : q * 2 ^ k ≤ p * 2 ^ j := by
  rw [flog2] at h
  have hpa := nlog2_le p hp
  have hpa' := nlog2_lt p hp
  have hqb := nlog2_le q hq
  have hqb' := nlog2_lt q hq
  set a := nlog2 p
  set b := nlog2 q
  by_cases hc : p * 2 ^ b < q * 2 ^ a
  · rw [if_pos hc] at h
    have hkj : k + b + 1 = a + j := by omega
    have h1 : q * 2 ^ k < 2 ^ (b + 1) * 2 ^ k :=
      (Nat.mul_lt_mul_right (pow_pos (by norm_num) _)).mpr hqb'
    have h2 : 2 ^ (b + 1) * 2 ^ k = 2 ^ a * 2 ^ j := by
      rw [← pow_add, ← pow_add, show b + 1 + k = a + j from by omega]
    have h3 : 2 ^ a * 2 ^ j ≤ p * 2 ^ j := Nat.mul_le_mul_right _ hpa
    omega
  · rw [if_neg hc] at h
    push_neg at hc
    have hkj : k + b = a + j := by omega
    have key : (q * 2 ^ k) * 2 ^ b ≤ (p * 2 ^ j) * 2 ^ b := by
      calc (q * 2 ^ k) * 2 ^ b = (q * 2 ^ a) * 2 ^ j := by
            rw [mul_assoc, mul_assoc, ← pow_add, ← pow_add,
              show k + b = a + j from hkj]
      _ ≤ (p * 2 ^ b) * 2 ^ j := Nat.mul_le_mul_right _ hc
      _ = (p * 2 ^ j) * 2 ^ b := by ring
    exact Nat.le_of_mul_le_mul_right key (pow_pos (by norm_num) _)

/-- Upper half of the defining property of `flog2`: the rational `p/q` is less
than `2 ^ (flog2 p q + 1)`, stated multiplicatively over ℕ. -/
theorem flog2_ub {p q : ℕ} (hp : 1 ≤ p) (hq : 1 ≤ q) (k j : ℕ)
    (h : (k : ℤ) - j = flog2 p q + 1) : p * 2 ^ j < q * 2 ^ k := by
  rw [flog2] at h
  have hpa := nlog2_le p hp
  have hpa' := nlog2_lt p hp
  have hqb := nlog2_le q hq
  have hqb' := nlog2_lt q hq
  set a := nlog2 p
  set b := nlog2 q
  by_cases hc : p * 2 ^ b < q * 2 ^ a
  · rw [if_pos hc] at h
    have hkj : k + b = a + j := by omega
    have key : (p * 2 ^ j) * 2 ^ b < (q * 2 ^ k) * 2 ^ b := by
      calc (p * 2 ^ j) * 2 ^ b = (p * 2 ^ b) * 2 ^ j := by ring
      _ < (q * 2 ^ a) * 2 ^ j := (Nat.mul_lt_mul_right (pow_pos (by norm_num) _)).mpr hc
      _ = (q * 2 ^ k) * 2 ^ b := by
            rw [mul_assoc, mul_assoc, ← pow_add, ← pow_add,
              show a + j = k + b from hkj.symm]
    exact Nat.lt_of_mul_lt_mul_right key
  · rw [if_neg hc] at h
    have hkj : k + b = a + j + 1 := by omega
    have h1 : p * 2 ^ j < 2 ^ (a + 1) * 2 ^ j :=
      (Nat.mul_lt_mul_right (pow_pos (by norm_num) _)).mpr hpa'
    have h2 : 2 ^ (a + 1) * 2 ^ j = 2 ^ b * 2 ^ k := by
      rw [← pow_add, ← pow_add, show a + 1 + j = b + k from by omega]
    have h3 : 2 ^ b * 2 ^ k ≤ q * 2 ^ k := Nat.mul_le_mul_right _ hqb
    omega

theorem flog2_two_mul {p q : ℕ} (hp : 1 ≤ p) (hq : 1 ≤ q) :
    flog2 (2 * p) q = flog2 p q + 1 := by
  rw [flog2, flog2, nlog2_two_mul hp]
  have hiff : (2 * p * 2 ^ nlog2 q < q * 2 ^ (nlog2 p + 1)) ↔
      (p * 2 ^ nlog2 q < q * 2 ^ nlog2 p) := by
    rw [pow_succ]
    constructor
    · intro h
      have : 2 * (p * 2 ^ nlog2 q) < 2 * (q * 2 ^ nlog2 p) := by
        calc 2 * (p * 2 ^ nlog2 q) = 2 * p * 2 ^ nlog2 q := by ring
        _ < q * (2 ^ nlog2 p * 2) := h
        _ = 2 * (q * 2 ^ nlog2 p) := by ring
      omega
    · intro h
      calc 2 * p * 2 ^ nlog2 q = 2 * (p * 2 ^ nlog2 q) := by ring
      _ < 2 * (q * 2 ^ nlog2 p) := by omega
      _ = q * (2 ^ nlog2 p * 2) := by ring
  by_cases hc : p * 2 ^ nlog2 q < q * 2 ^ nlog2 p
  · rw [if_pos (hiff.mpr hc), if_pos hc]
    push_cast
    ring
  · rw [if_neg (fun h => hc (hiff.mp h)), if_neg hc]
    push_cast
    ring

/-- `flog2` of a ratio with power-of-two denominator, from a power sandwich
on the numerator. -/
theorem flog2_sandwich {p : ℕ} {L U : ℕ} (h1 : 2 ^ L ≤ p) (h2 : p < 2 ^ U) (c : ℕ) :
    (L : ℤ) - c ≤ flog2 p (2 ^ c) ∧ flog2 p (2 ^ c) ≤ (U : ℤ) - 1 - c := by
  have hp : 1 ≤ p := le_trans Nat.one_le_two_pow h1
  rw [flog2_pow_den hp c]
  have ha := nlog2_ge h1
  have hb := nlog2_ub hp h2
  omega

/-! ## encodeRound lemmas -/

theorem qnanB_lt : qnanB < 2 ^ 32 := by decide

theorem infBits_lt (s : Bool) : infBits s < 2 ^ 32 := by cases s <;> decide

theorem zeroBits_lt (s : Bool) : zeroBits s < 2 ^ 32 := by cases s <;> decide

theorem mkBits_addE (s : Bool) (E M : ℕ) : mkBits s (E + 1) M = mkBits s E M + 2 ^ 23 := by
  cases s <;> simp only [mkBits] <;> ring

/-- In the non-subnormal branch the rounded integer significand is at most
`2^24`. -/
theorem rnd_m_le {p q : ℕ} (hp : 1 ≤ p) (hq : 1 ≤ q) (h : ¬flog2 p q < -126) :
    rndDiv (if (0:ℤ) ≤ 23 - flog2 p q then p * 2 ^ (23 - flog2 p q).toNat else p)
      (if (0:ℤ) ≤ 23 - flog2 p q then q else q * 2 ^ (flog2 p q - 23).toNat) ≤ 2 ^ 24 := by
  by_cases hC : (0:ℤ) ≤ 23 - flog2 p q
  · rw [if_pos hC, if_pos hC]
    have hub : p * 2 ^ (23 - flog2 p q).toNat < q * 2 ^ 24 :=
      flog2_ub hp hq 24 (23 - flog2 p q).toNat (by omega)
    have hdivlt : p * 2 ^ (23 - flog2 p q).toNat / q < 2 ^ 24 :=
      (Nat.div_lt_iff_lt_mul (by omega)).mpr (by omega)
    have := rndDiv_le (p * 2 ^ (23 - flog2 p q).toNat) hq
    omega
  · rw [if_neg hC, if_neg hC]
    have hub : p * 2 ^ 0 < q * 2 ^ (flog2 p q + 1).toNat :=
      flog2_ub hp hq (flog2 p q + 1).toNat 0 (by omega)
    have hsplit : q * 2 ^ (flog2 p q + 1).toNat = q * 2 ^ (flog2 p q - 23).toNat * 2 ^ 24 := by
      rw [mul_assoc, ← pow_add]
      congr 2
      omega
    have hub2 : p < q * 2 ^ (flog2 p q - 23).toNat * 2 ^ 24 := by
      rw [hsplit] at hub
      simpa using hub
    have hdenpos : 1 ≤ q * 2 ^ (flog2 p q - 23).toNat :=
      Nat.mul_pos (by omega) (pow_pos (by norm_num) _)
    have hdivlt : p / (q * 2 ^ (flog2 p q - 23).toNat) < 2 ^ 24 :=
      (Nat.div_lt_iff_lt_mul (by omega)).mpr (by omega)
    have := rndDiv_le p hdenpos
    omega

theorem encodeRound_lt (s : Bool) {p q : ℕ} (hp : 1 ≤ p) (hq : 1 ≤ q) :
    encodeRound s p q < 2 ^ 32 := by
  simp only [encodeRound]
  by_cases h1 : flog2 p q < -126
  · rw [if_pos h1]
    by_cases h2 : rndDiv (p * 2 ^ 149) q < 2 ^ 23
    · rw [if_pos h2]
      exact mkBits_lt s (by norm_num) h2
    · rw [if_neg h2]
      exact mkBits_lt s (by norm_num) (by norm_num)
  · rw [if_neg h1]
    have hm := rnd_m_le hp hq h1
    set m := rndDiv (if (0:ℤ) ≤ 23 - flog2 p q then p * 2 ^ (23 - flog2 p q).toNat else p)
      (if (0:ℤ) ≤ 23 - flog2 p q then q else q * 2 ^ (flog2 p q - 23).toNat) with hmdef
    by_cases hb : m = 2 ^ 24
    · simp only [if_pos hb]
      by_cases hover : (127:ℤ) < flog2 p q + 1
      · rw [if_pos hover]
        exact infBits_lt s
      · rw [if_neg hover]
        exact mkBits_lt s (by omega) (by norm_num)
    · simp only [if_neg hb]
      by_cases hover : (127:ℤ) < flog2 p q
      · rw [if_pos hover]
        exact infBits_lt s
      · rw [if_neg hover]
        exact mkBits_lt s (by omega) (by omega)

/-- Rounding an exactly representable normal value returns its encoding. -/
theorem encodeRound_exact (s : Bool) {M k c : ℕ} (hM : M < 2 ^ 23)
    (h1 : c ≤ k + 149) (h2 : k + 150 ≤ c + 254) :
    encodeRound s ((2 ^ 23 + M) * 2 ^ k) (2 ^ c) = mkBits s (k + 150 - c) M := by
  have hp : 1 ≤ (2 ^ 23 + M) * 2 ^ k := Nat.mul_pos (by omega) (pow_pos (by norm_num) _)
  have hflog : flog2 ((2 ^ 23 + M) * 2 ^ k) (2 ^ c) = (23 + k : ℤ) - c := by
    rw [flog2_pow_den hp c, nlog2_mantissa hM]
    push_cast
    ring
  simp only [encodeRound, hflog]
  rw [if_neg (by omega)]
  have hmset : rndDiv
      (if (0:ℤ) ≤ 23 - ((23 + k : ℤ) - c) then
        (2 ^ 23 + M) * 2 ^ k * 2 ^ ((23 - ((23 + k : ℤ) - c)).toNat)
      else (2 ^ 23 + M) * 2 ^ k)
      (if (0:ℤ) ≤ 23 - ((23 + k : ℤ) - c) then 2 ^ c
      else 2 ^ c * 2 ^ (((23 + k : ℤ) - c - 23).toNat)) = 2 ^ 23 + M := by
    by_cases hC : (0:ℤ) ≤ 23 - ((23 + k : ℤ) - c)
    · rw [if_pos hC, if_pos hC]
      have hnum : (2 ^ 23 + M) * 2 ^ k * 2 ^ ((23 - ((23 + k : ℤ) - c)).toNat) =
          (2 ^ 23 + M) * 2 ^ c := by
        rw [mul_assoc, ← pow_add]
        congr 2
        omega
      rw [hnum]
      exact rndDiv_mul_self Nat.one_le_two_pow
    · rw [if_neg hC, if_neg hC]
      have hden : (2:ℕ) ^ c * 2 ^ (((23 + k : ℤ) - c - 23).toNat) = 2 ^ k := by
        rw [← pow_add]
        congr 1
        omega
      rw [hden]
      exact rndDiv_mul_self Nat.one_le_two_pow
  rw [hmset]
  have hne : ¬(2 ^ 23 + M = 2 ^ 24) := by omega
  simp only [if_neg hne]
  rw [if_neg (show ¬((127:ℤ) < (23 + k : ℤ) - c) from by omega)]
  have ht1 : ((23 + k : ℤ) - c + 127).toNat = k + 150 - c := by omega
  have ht2 : 2 ^ 23 + M - 2 ^ 23 = M := by omega
  rw [ht1, ht2]

/-- Doubling the rounded value adds one to the exponent field, provided the
value stays strictly inside the normal range. -/
theorem encodeRound_double (s : Bool) {p q : ℕ} (hp : 1 ≤ p) (hq : 1 ≤ q)
    (hlo : -126 ≤ flog2 p q) (hhi : flog2 p q ≤ 125) :
    encodeRound s (2 * p) q = encodeRound s p q + 2 ^ 23 := by
  have hflog2 : flog2 (2 * p) q = flog2 p q + 1 := flog2_two_mul hp hq
  have hm := rnd_m_le hp hq (by omega)
  simp only [encodeRound, hflog2]
  rw [if_neg (show ¬(flog2 p q + 1 < -126) from by omega),
    if_neg (show ¬(flog2 p q < -126) from by omega)]
  have hmeq : rndDiv
      (if (0:ℤ) ≤ 23 - (flog2 p q + 1) then 2 * p * 2 ^ ((23 - (flog2 p q + 1)).toNat)
        else 2 * p)
      (if (0:ℤ) ≤ 23 - (flog2 p q + 1) then q else q * 2 ^ ((flog2 p q + 1 - 23).toNat)) =
      rndDiv (if (0:ℤ) ≤ 23 - flog2 p q then p * 2 ^ ((23 - flog2 p q).toNat) else p)
      (if (0:ℤ) ≤ 23 - flog2 p q then q else q * 2 ^ ((flog2 p q - 23).toNat)) := by
    by_cases hC1 : (0:ℤ) ≤ 23 - (flog2 p q + 1)
    · rw [if_pos hC1, if_pos hC1, if_pos (by omega), if_pos (by omega)]
      congr 1
      have hexp : (23 - flog2 p q).toNat = (23 - (flog2 p q + 1)).toNat + 1 := by omega
      rw [hexp, pow_succ]
      ring
    · by_cases hC2 : (0:ℤ) ≤ 23 - flog2 p q
      · rw [if_neg hC1, if_neg hC1, if_pos hC2, if_pos hC2]
        have h1' : (flog2 p q + 1 - 23).toNat = 1 := by omega
        have h2' : (23 - flog2 p q).toNat = 0 := by omega
        rw [h1', h2']
        have ha : q * 2 ^ 1 = 2 * q := by ring
        have hb : p * 2 ^ 0 = p := by ring
        rw [ha, hb, rndDiv_scale (by norm_num)]
      · rw [if_neg hC1, if_neg hC1, if_neg hC2, if_neg hC2]
        have hexp : (flog2 p q + 1 - 23).toNat = (flog2 p q - 23).toNat + 1 := by omega
        rw [hexp, pow_succ]
        have ha : q * (2 ^ ((flog2 p q - 23).toNat) * 2) =
            2 * (q * 2 ^ ((flog2 p q - 23).toNat)) := by ring
        rw [ha, rndDiv_scale (by norm_num)]
  rw [hmeq]
  set m := rndDiv (if (0:ℤ) ≤ 23 - flog2 p q then p * 2 ^ ((23 - flog2 p q).toNat) else p)
      (if (0:ℤ) ≤ 23 - flog2 p q then q else q * 2 ^ ((flog2 p q - 23).toNat)) with hmdef
  by_cases hb : m = 2 ^ 24
  · simp only [if_pos hb]
    rw [if_neg (show ¬((127:ℤ) < flog2 p q + 1 + 1) from by omega),
      if_neg (show ¬((127:ℤ) < flog2 p q + 1) from by omega)]
    have heq : (flog2 p q + 1 + 1 + 127).toNat = (flog2 p q + 1 + 127).toNat + 1 := by omega
    rw [heq, mkBits_addE]
  · simp only [if_neg hb]
    rw [if_neg (show ¬((127:ℤ) < flog2 p q + 1) from by omega),
      if_neg (show ¬((127:ℤ) < flog2 p q) from by omega)]
    have heq : (flog2 p q + 1 + 127).toNat = (flog2 p q + 127).toNat + 1 := by omega
    rw [heq, mkBits_addE]

/-- Shape of a rounding that stays in the normal range: a normal pattern with
the requested sign whose exponent field is within one of `flog2 + 127`. -/
theorem encodeRound_shape (s : Bool) {p q : ℕ} (hp : 1 ≤ p) (hq : 1 ≤ q)
    (hlo : -126 ≤ flog2 p q) (hhi : flog2 p q ≤ 125) :
    ∃ E N, encodeRound s p q = mkBits s E N ∧ N < 2 ^ 23 ∧
      (flog2 p q + 127).toNat ≤ E ∧ E ≤ (flog2 p q + 128).toNat := by
  have hm := rnd_m_le hp hq (by omega)
  simp only [encodeRound]
  rw [if_neg (by omega)]
  set m := rndDiv (if (0:ℤ) ≤ 23 - flog2 p q then p * 2 ^ ((23 - flog2 p q).toNat) else p)
      (if (0:ℤ) ≤ 23 - flog2 p q then q else q * 2 ^ ((flog2 p q - 23).toNat)) with hmdef
  by_cases hb : m = 2 ^ 24
  · simp only [if_pos hb]
    rw [if_neg (show ¬((127:ℤ) < flog2 p q + 1) from by omega)]
    exact ⟨(flog2 p q + 1 + 127).toNat, 2 ^ 23 - 2 ^ 23, rfl, by norm_num, by omega, by omega⟩
  · simp only [if_neg hb]
    rw [if_neg (show ¬((127:ℤ) < flog2 p q) from by omega)]
    exact ⟨(flog2 p q + 127).toNat, m - 2 ^ 23, rfl, by omega, by omega, by omega⟩

/-! ## Lemmas on the float operations -/

theorem flag_inf_zero {x : ℕ} (h1 : isInfB x = true) (h2 : isZeroB x = true) : False := by
  simp only [isInfB, isZeroB, decide_eq_true_eq] at h1 h2
  omega

theorem fmul_comm (a b : ℕ) : fmul a b = fmul b a := by
  rw [fmul, fmul]
  cases ha : isNanB a <;> cases hb : isNanB b <;>
    cases hia : isInfB a <;> cases hib : isInfB b <;>
      cases hza : isZeroB a <;> cases hzb : isZeroB b <;>
        first
        | exact (flag_inf_zero hia hza).elim
        | exact (flag_inf_zero hib hzb).elim
        | simp [ha, hb, hia, hib, hza, hzb, Bool.xor_comm, Nat.mul_comm]

theorem fmul_finite {a b : ℕ} (h1 : isNanB a = false) (h2 : isNanB b = false)
    (h3 : isInfB a = false) (h4 : isInfB b = false)
    (h5 : isZeroB a = false) (h6 : isZeroB b = false) :
    fmul a b = encodeRound (xor (signB a) (signB b)) (mag149 a * mag149 b)
      (2 ^ 149 * 2 ^ 149) := by
  rw [fmul]
  simp [h1, h2, h3, h4, h5, h6]

theorem fmul_lt (a b : ℕ) : fmul a b < 2 ^ 32 := by
  rw [fmul]
  by_cases h1 : (isNanB a || isNanB b) = true
  · rw [if_pos h1]
    exact qnanB_lt
  rw [if_neg h1]
  by_cases h2 : isInfB a = true
  · rw [if_pos h2]
    by_cases h3 : isZeroB b = true
    · rw [if_pos h3]
      exact qnanB_lt
    · rw [if_neg h3]
      exact infBits_lt _
  rw [if_neg h2]
  by_cases h4 : isInfB b = true
  · rw [if_pos h4]
    by_cases h5 : isZeroB a = true
    · rw [if_pos h5]
      exact qnanB_lt
    · rw [if_neg h5]
      exact infBits_lt _
  rw [if_neg h4]
  by_cases h6 : (isZeroB a || isZeroB b) = true
  · rw [if_pos h6]
    exact zeroBits_lt _
  rw [if_neg h6]
  simp only [Bool.or_eq_true, not_or, Bool.not_eq_true] at h6
  exact encodeRound_lt _ (Nat.mul_pos (mag149_pos h6.1) (mag149_pos h6.2))
    (Nat.mul_pos (pow_pos (by norm_num) _) (pow_pos (by norm_num) _))

theorem fsub_lt (a b : ℕ) : fsub a b < 2 ^ 32 := by
  simp only [fsub]
  by_cases h1 : (isNanB a || isNanB b) = true
  · rw [if_pos h1]
    exact qnanB_lt
  rw [if_neg h1]
  by_cases h2 : isInfB a = true
  · rw [if_pos h2]
    by_cases h3 : isInfB b = true
    · rw [if_pos h3]
      by_cases h4 : signB a = signB b
      · rw [if_pos h4]
        exact qnanB_lt
      · rw [if_neg h4]
        exact infBits_lt _
    · rw [if_neg h3]
      exact infBits_lt _
  rw [if_neg h2]
  by_cases h3 : isInfB b = true
  · rw [if_pos h3]
    exact infBits_lt _
  rw [if_neg h3]
  by_cases h5 : sval149 a - sval149 b = 0
  · rw [if_pos h5]
    exact zeroBits_lt _
  · rw [if_neg h5]
    have hp1 : 1 ≤ (sval149 a - sval149 b).natAbs := by omega
    exact encodeRound_lt _ hp1 Nat.one_le_two_pow

theorem fdiv_lt (a b : ℕ) : fdiv a b < 2 ^ 32 := by
  rw [fdiv]
  by_cases h1 : (isNanB a || isNanB b) = true
  · rw [if_pos h1]
    exact qnanB_lt
  rw [if_neg h1]
  by_cases h2 : isInfB a = true
  · rw [if_pos h2]
    by_cases h3 : isInfB b = true
    · rw [if_pos h3]
      exact qnanB_lt
    · rw [if_neg h3]
      exact infBits_lt _
  rw [if_neg h2]
  by_cases h3 : isInfB b = true
  · rw [if_pos h3]
    exact zeroBits_lt _
  rw [if_neg h3]
  by_cases h4 : isZeroB b = true
  · rw [if_pos h4]
    by_cases h5 : isZeroB a = true
    · rw [if_pos h5]
      exact qnanB_lt
    · rw [if_neg h5]
      exact infBits_lt _
  rw [if_neg h4]
  by_cases h5 : isZeroB a = true
  · rw [if_pos h5]
    exact zeroBits_lt _
  · rw [if_neg h5]
    exact encodeRound_lt _ (mag149_pos (by simpa using h5)) (mag149_pos (by simpa using h4))

/-! ## Value lemmas -/

theorem val_of_pos {c : ℕ} (hc : signB c = false) : val c = (mag149 c : ℚ) / 2 ^ 149 := by
  rw [val, hc]
  norm_num

theorem val_pos {c : ℕ} (h1 : signB c = false) (h2 : 1 ≤ mag149 c) : 0 < val c := by
  rw [val_of_pos h1]
  have : (0:ℚ) < (mag149 c : ℚ) := by
    exact_mod_cast h2
  positivity

theorem val_le_val {c d : ℕ} (hc : signB c = false) (hd : signB d = false)
    (h : mag149 c ≤ mag149 d) : val c ≤ val d := by
  rw [val_of_pos hc, val_of_pos hd]
  have hcast : (mag149 c : ℚ) ≤ (mag149 d : ℚ) := by exact_mod_cast h
  have hpos : (0:ℚ) < 2 ^ 149 := by positivity
  exact (div_le_div_right hpos).mpr hcast

theorem val_lt_val {c d : ℕ} (hc : signB c = false) (hd : signB d = false)
    (h : mag149 c < mag149 d) : val c < val d := by
  rw [val_of_pos hc, val_of_pos hd]
  have hcast : (mag149 c : ℚ) < (mag149 d : ℚ) := by exact_mod_cast h
  have hpos : (0:ℚ) < 2 ^ 149 := by positivity
  exact (div_lt_div_right hpos).mpr hcast

/-! ## The bit trick at integer level -/

theorem y0of_eq {b : ℕ} (h : b < 2 ^ 31) : y0of b = MAGIC - b / 2 := by
  rw [y0of, floatBitsToLong, ofBytes_toBytes b (by omega), asr1, if_pos h, longToFloatBits]
  have hmod : (MAGIC + 2 ^ 32 - b / 2) % 2 ^ 32 = MAGIC - b / 2 := by
    simp only [MAGIC]
    omega
  rw [hmod, ofBytes_toBytes _ (by simp only [MAGIC]; omega)]

/-! ## Claims -/

/-- C1: for every 32-bit input pattern, `inv_sqrt` computes its result by
exactly the specified two-step algorithm: the bits of `n` reinterpreted as a
signed integer `i0`, the intermediate `i1 = 0x5F3759DF - (i0 >> 1)` formed
with an arithmetic right shift, `i1` reinterpreted back as a float `y0`, and
the returned value equal to the single Newton-Raphson refinement
`y0 * (1.5 - 0.5 * n * y0 * y0)`, with no further iteration. -/
theorem claim1_algorithm (n : ℕ) (h : n < 2 ^ 32) : inv_sqrt n = spec_inv_sqrt n := by
  have hfb : floatBitsToLong n = n := ofBytes_toBytes n h
  have hbit : (MAGIC + 2 ^ 32 - asr1 n) % 2 ^ 32 =
      (((MAGIC : ℤ) - toSigned n / 2) % 2 ^ 32).toNat := by
    rw [asr1]
    simp only [toSigned, MAGIC]
    by_cases hn : n < 2 ^ 31
    · rw [if_pos hn, if_neg (by omega)]
      omega
    · rw [if_neg hn, if_pos (by omega)]
      omega
  simp only [inv_sqrt, spec_inv_sqrt, hfb, hbit]
  rw [fmul_comm half n]

theorem claim1_witness : (0x40800000 : ℕ) < 2 ^ 32 ∧
    inv_sqrt 0x40800000 = spec_inv_sqrt 0x40800000 :=
  ⟨by norm_num, claim1_algorithm 0x40800000 (by norm_num)⟩

/-- C2: the reinterpretation used by `inv_sqrt` operates on a 32-bit signed
integer and preserves the exact bit pattern: the float-to-integer cast keeps
the bits unchanged (no numeric conversion), the round trip is bit-identical,
and the signed reading lies in the 32-bit two's-complement range. -/
theorem claim2_bit_reinterpretation (b : ℕ) (h : b < 2 ^ 32) :
    floatBitsToLong b = b ∧
    longToFloatBits (floatBitsToLong b) = b ∧
    -(2 ^ 31) ≤ toSigned (floatBitsToLong b) ∧ toSigned (floatBitsToLong b) < 2 ^ 31 := by
  have h1 : floatBitsToLong b = b := ofBytes_toBytes b h
  refine ⟨h1, ?_, ?_, ?_⟩
  · rw [h1]
    exact ofBytes_toBytes b h
  · rw [h1]
    simp only [toSigned]
    split <;> omega
  · rw [h1]
    simp only [toSigned]
    split <;> omega

theorem claim2_witness : (0xFF7FFFFF : ℕ) < 2 ^ 32 ∧
    (floatBitsToLong 0xFF7FFFFF = 0xFF7FFFFF ∧
      longToFloatBits (floatBitsToLong 0xFF7FFFFF) = 0xFF7FFFFF ∧
      -(2 ^ 31) ≤ toSigned (floatBitsToLong 0xFF7FFFFF) ∧
      toSigned (floatBitsToLong 0xFF7FFFFF) < 2 ^ 31) :=
  ⟨by norm_num, claim2_bit_reinterpretation 0xFF7FFFFF (by norm_num)⟩

/-- C7: `inv_sqrt` is pure and deterministic: it is modelled by a function of
the input bit pattern alone (no state appears anywhere in the semantics), so
any two invocations on bit-identical inputs return bit-identical outputs. -/
theorem claim7_pure_deterministic (a b : ℕ) (h : a = b) : inv_sqrt a = inv_sqrt b := by
  rw [h]

theorem claim7_witness : inv_sqrt 0x40490FDB = inv_sqrt 0x40490FDB :=
  claim7_pure_deterministic 0x40490FDB 0x40490FDB rfl

/-- C8: `inv_sqrt` is total over all 32-bit inputs - zero, negative,
subnormal, NaN and infinite patterns included - and always returns a
well-defined 32-bit float pattern; it never signals failure. -/
theorem claim8_total (n : ℕ) (h : n < 2 ^ 32) : inv_sqrt n < 2 ^ 32 := by
  rw [inv_sqrt_eq]
  exact fmul_lt _ _

theorem claim8_witness : (0x7FC00000 : ℕ) < 2 ^ 32 ∧ inv_sqrt 0x7FC00000 < 2 ^ 32 :=
  ⟨by norm_num, claim8_total 0x7FC00000 (by norm_num)⟩

/-- C5: on input 4.0 (pattern `0x40800000`) the result is approximately 0.5,
the exact reciprocal square root, with relative error at most about 0.2%
(the exact error is ≈0.169%). -/
theorem claim5_four : val four = 4 ∧
    |val (inv_sqrt four) - 1 / 2| ≤ 2 / 1000 * (1 / 2) := by
  constructor
  · have hs : signB four = false := by decide
    have hm : mag149 four = 2 ^ 151 := by decide
    rw [val_of_pos hs, hm]
    norm_num
  · have he : inv_sqrt four = 0x3eff910f := by decide
    have hs : signB 0x3eff910f = false := by decide
    have hm : mag149 0x3eff910f = 16748815 * 2 ^ 124 := by decide
    rw [he, val_of_pos hs, hm, abs_le]
    constructor <;> norm_num

/-- C10: on input +0.0 (all-zero pattern) the intermediate integer is the
magic constant itself, the correction term vanishes, and the result is the
finite positive float `1.5 * float(0x5F3759DF)` ≈ 1.98e19 - neither infinity
nor NaN. -/
theorem claim10_zero :
    y0of (zeroBits false) = MAGIC ∧
    inv_sqrt (zeroBits false) = fmul MAGIC threehalfs ∧
    inv_sqrt (zeroBits false) = 0x5f898367 ∧
    isNanB (inv_sqrt (zeroBits false)) = false ∧
    isInfB (inv_sqrt (zeroBits false)) = false ∧
    signB (inv_sqrt (zeroBits false)) = false ∧
    19817 / 10000 * 10 ^ 19 < val (inv_sqrt (zeroBits false)) ∧
    val (inv_sqrt (zeroBits false)) < 19818 / 10000 * 10 ^ 19 := by
  have he : inv_sqrt (zeroBits false) = 0x5f898367 := by decide
  have hs : signB 0x5f898367 = false := by decide
  have hm : mag149 0x5f898367 = 9012071 * 2 ^ 190 := by decide
  refine ⟨by decide, by decide, he, ?_, ?_, ?_, ?_, ?_⟩
  · rw [he]
    decide
  · rw [he]
    decide
  · rw [he]
    exact hs
  · rw [he, val_of_pos hs, hm]
    norm_num
  · rw [he, val_of_pos hs, hm]
    norm_num

/-- C6: `main` invokes `inv_sqrt` on the float literal 3.4 (pattern
`0x4059999A`), computes `1.0F / result` ≈ 1.843921, which approximates
`sqrt(3.4)` ≈ 1.843909 well within 1% (and the core result approximates
`1/sqrt(3.4)` ≈ 0.542326 within 1%), prints the quotient in fixed
six-decimal formatting (micro-units 1843921, i.e. "1.843921") to standard
output, and exits with status 0. -/
theorem claim6_main :
    main = (1843921, 0) ∧
    lit34 = 0x4059999A ∧
    0 < val (fdiv one (inv_sqrt lit34)) ∧
    (99 / 100) ^ 2 * (17 / 5) < val (fdiv one (inv_sqrt lit34)) ^ 2 ∧
    val (fdiv one (inv_sqrt lit34)) ^ 2 < (101 / 100) ^ 2 * (17 / 5) ∧
    0 < val (inv_sqrt lit34) ∧
    (99 / 100) ^ 2 < val (inv_sqrt lit34) ^ 2 * (17 / 5) ∧
    val (inv_sqrt lit34) ^ 2 * (17 / 5) < (101 / 100) ^ 2 := by
  have he1 : inv_sqrt lit34 = 0x3f0ad5a9 := by decide
  have he2 : fdiv one (inv_sqrt lit34) = 0x3fec0597 := by
    rw [he1]
    decide
  have hs1 : signB 0x3f0ad5a9 = false := by decide
  have hm1 : mag149 0x3f0ad5a9 = 9098665 * 2 ^ 125 := by decide
  have hs2 : signB 0x3fec0597 = false := by decide
  have hm2 : mag149 0x3fec0597 = 15467927 * 2 ^ 126 := by decide
  refine ⟨by decide, by decide, ?_, ?_, ?_, ?_, ?_, ?_⟩
  · rw [he2, val_of_pos hs2, hm2]
    positivity
  · rw [he2, val_of_pos hs2, hm2]
    norm_num
  · rw [he2, val_of_pos hs2, hm2]
    norm_num
  · rw [he1, val_of_pos hs1, hm1]
    positivity
  · rw [he1, val_of_pos hs1, hm1]
    norm_num
  · rw [he1, val_of_pos hs1, hm1]
    norm_num

/-! ## Monotonicity (claim C4) -/

theorem mag149_strictMono {a b : ℕ} (h : a < b) (hb : b < 2 ^ 31) :
    mag149 a < mag149 b := by
  have hEa : expF a = a / 2 ^ 23 := by simp only [expF]; omega
  have hEb : expF b = b / 2 ^ 23 := by simp only [expF]; omega
  have hMa : manF a = a % 2 ^ 23 := rfl
  have hMb : manF b = b % 2 ^ 23 := rfl
  have hMa' : manF a < 2 ^ 23 := by rw [hMa]; exact Nat.mod_lt _ (by norm_num)
  have hMb' : manF b < 2 ^ 23 := by rw [hMb]; exact Nat.mod_lt _ (by norm_num)
  rcases Nat.lt_trichotomy (expF a) (expF b) with hE | hE | hE
  · rw [mag149, mag149, if_neg (show ¬expF b = 0 from by omega)]
    by_cases hA0 : expF a = 0
    · rw [if_pos hA0]
      calc manF a < 2 ^ 23 * 1 := by omega
      _ ≤ 2 ^ 23 * 2 ^ (expF b - 1) := Nat.mul_le_mul_left _ Nat.one_le_two_pow
      _ ≤ (2 ^ 23 + manF b) * 2 ^ (expF b - 1) := Nat.mul_le_mul_right _ (by omega)
    · rw [if_neg hA0]
      calc (2 ^ 23 + manF a) * 2 ^ (expF a - 1) < 2 ^ 24 * 2 ^ (expF a - 1) :=
            (Nat.mul_lt_mul_right (pow_pos (by norm_num) _)).mpr (by omega)
      _ = 2 ^ (24 + (expF a - 1)) := by rw [← pow_add]
      _ ≤ 2 ^ (23 + (expF b - 1)) := Nat.pow_le_pow_right (by norm_num) (by omega)
      _ = 2 ^ 23 * 2 ^ (expF b - 1) := by rw [← pow_add]
      _ ≤ (2 ^ 23 + manF b) * 2 ^ (expF b - 1) := Nat.mul_le_mul_right _ (by omega)
  · have hM : manF a < manF b := by omega
    rw [mag149, mag149, hE]
    by_cases hB0 : expF b = 0
    · simp only [if_pos hB0]
      omega
    · simp only [if_neg hB0]
      exact (Nat.mul_lt_mul_right (pow_pos (by norm_num) _)).mpr (by omega)
  · exfalso
    omega

/-- C4 counterexample: the adjacent positive floats `n1 = 1.00000608`
(`0x3F800033`) and `n2 = 1.0000062` (`0x3F800034`) satisfy `0 < n1 < n2` yet
`inv_sqrt n1 < inv_sqrt n2`: the function is not strictly decreasing on
positive inputs (here it even increases). -/
theorem claim4_counterexample :
    (0 : ℚ) < val 0x3F800033 ∧ val 0x3F800033 < val 0x3F800034 ∧
    val (inv_sqrt 0x3F800033) < val (inv_sqrt 0x3F800034) := by
  have he1 : inv_sqrt 0x3F800033 = 0x3f7f90de := by decide
  have he2 : inv_sqrt 0x3F800034 = 0x3f7f90df := by decide
  refine ⟨?_, ?_, ?_⟩
  · exact val_pos (by decide) (by decide)
  · exact val_lt_val (by decide) (by decide) (by decide)
  · rw [he1, he2]
    exact val_lt_val (by decide) (by decide) (by decide)

/-- C4 amended: the exact reciprocal square root is strictly decreasing, but
the refined `inv_sqrt` is not monotone (see the counterexample); what the
bit-level algorithm does guarantee is that its zeroth-order estimate `y0` is
monotone nonincreasing on positive finite inputs, and strictly decreasing
whenever the two input patterns differ by at least two units. -/
theorem claim4_amended (b1 b2 : ℕ) (h0 : 0 < b1) (h12 : b1 < b2)
    (h2 : b2 ≤ 0x7F7FFFFF) :
    val (y0of b2) ≤ val (y0of b1) ∧
    (b1 + 2 ≤ b2 → val (y0of b2) < val (y0of b1)) := by
  have hb1 : b1 < 2 ^ 31 := by omega
  have hb2 : b2 < 2 ^ 31 := by omega
  rw [y0of_eq hb1, y0of_eq hb2]
  have hs1 : signB (MAGIC - b1 / 2) = false := signB_eq_false (by simp only [MAGIC]; omega)
  have hs2 : signB (MAGIC - b2 / 2) = false := signB_eq_false (by simp only [MAGIC]; omega)
  constructor
  · rcases Nat.lt_or_ge (MAGIC - b2 / 2) (MAGIC - b1 / 2) with hlt | hge
    · exact le_of_lt (val_lt_val hs2 hs1 (mag149_strictMono hlt (by simp only [MAGIC]; omega)))
    · have heq : MAGIC - b2 / 2 = MAGIC - b1 / 2 := by omega
      exact le_of_eq (by rw [heq])
  · intro hgap
    have hlt : MAGIC - b2 / 2 < MAGIC - b1 / 2 := by
      simp only [MAGIC] at *
      omega
    exact val_lt_val hs2 hs1 (mag149_strictMono hlt (by simp only [MAGIC]; omega))

theorem claim4_amended_witness :
    (0 : ℕ) < 0x3F800000 ∧ (0x3F800000 : ℕ) < 0x40800000 ∧
    (0x40800000 : ℕ) ≤ 0x7F7FFFFF ∧
    (val (y0of 0x40800000) ≤ val (y0of 0x3F800000) ∧
      ((0x3F800000 : ℕ) + 2 ≤ 0x40800000 →
        val (y0of 0x40800000) < val (y0of 0x3F800000))) :=
  ⟨by norm_num, by norm_num, by norm_num,
    claim4_amended 0x3F800000 0x40800000 (by norm_num) (by norm_num) (by norm_num)⟩

/-! ## Exact scaling lemmas (claim C9) -/

theorem fields_of (x E M : ℕ) (hx : x = E * 2 ^ 23 + M) (hM : M < 2 ^ 23) (hE : E ≤ 255) :
    expF x = E ∧ manF x = M ∧ signB x = false := by
  subst hx
  refine ⟨?_, ?_, signB_eq_false (by omega)⟩
  · simp only [expF]
    omega
  · simp only [manF]
    omega

theorem val_twice {c d : ℕ} (hsgn : signB c = signB d) (hmag : mag149 c = 2 * mag149 d) :
    val c = 2 * val d := by
  rw [val, val, hsgn, hmag]
  push_cast
  ring

/-- `fmul` on two normal operands, with the denominator collected. -/
theorem fmul_normal (a b : ℕ) (ha1 : 1 ≤ expF a) (ha2 : expF a ≤ 254)
    (hb1 : 1 ≤ expF b) (hb2 : expF b ≤ 254) :
    fmul a b = encodeRound (xor (signB a) (signB b)) (mag149 a * mag149 b) (2 ^ 298) := by
  have hfa := flags_of_normal ha1 ha2
  have hfb := flags_of_normal hb1 hb2
  rw [fmul_finite hfa.1 hfb.1 hfa.2.1 hfb.2.1 hfa.2.2 hfb.2.2]
  congr 1

/-- Bounds on `flog2` of a product of two normal magnitudes over `2^298`. -/
theorem flog2_mag_prod (x y : ℕ) (hx1 : 1 ≤ expF x) (hx2 : expF x ≤ 255)
    (hy1 : 1 ≤ expF y) (hy2 : expF y ≤ 255) :
    (44 : ℤ) + expF x + expF y - 298 ≤ flog2 (mag149 x * mag149 y) (2 ^ 298) ∧
    flog2 (mag149 x * mag149 y) (2 ^ 298) ≤ (45 : ℤ) + expF x + expF y - 298 := by
  have hbx := mag149_bounds x hx1 hx2
  have hby := mag149_bounds y hy1 hy2
  have hlo : 2 ^ (22 + expF x + (22 + expF y)) ≤ mag149 x * mag149 y := by
    rw [pow_add]
    exact Nat.mul_le_mul hbx.1 hby.1
  have hhi : mag149 x * mag149 y < 2 ^ (23 + expF x + (23 + expF y)) := by
    rw [pow_add]
    exact Nat.mul_lt_mul'' hbx.2 hby.2
  have hsw := flog2_sandwich hlo hhi 298
  omega

/-- Multiplying a positive normal float with exponent field in `[1, 252]` by
`4.0F` adds exactly two to the exponent field (`+ 2^24` on the pattern). -/
theorem fmul_four {b : ℕ} (hs : signB b = false) (h1 : 1 ≤ expF b) (h2 : expF b ≤ 252) :
    fmul four b = b + 2 ^ 24 := by
  have hb31 : b < 2 ^ 31 := lt_of_signB_eq_false hs
  have hM : manF b < 2 ^ 23 := Nat.mod_lt _ (by norm_num)
  have hff := fmul_normal four b (by decide) (by decide) h1 (by omega)
  rw [hff, hs]
  have hsf : signB four = false := by decide
  rw [hsf]
  have hxor : xor false false = false := rfl
  rw [hxor]
  have hmf : mag149 four = 2 ^ 151 := by decide
  have hmagb : mag149 b = (2 ^ 23 + manF b) * 2 ^ (expF b - 1) := by
    rw [mag149, if_neg (by omega)]
  rw [hmf, hmagb]
  have hprod : 2 ^ 151 * ((2 ^ 23 + manF b) * 2 ^ (expF b - 1)) =
      (2 ^ 23 + manF b) * 2 ^ (expF b + 150) := by
    rw [show expF b + 150 = 151 + (expF b - 1) from by omega, pow_add]
    ring
  rw [hprod, encodeRound_exact false hM (by omega) (by omega)]
  have hfld : expF b + 150 + 150 - 298 = expF b + 2 := by omega
  rw [hfld]
  have hdecomp := bits_decomp hb31
  simp only [mkBits, Bool.false_eq_true, if_false]
  omega

/-- Multiplying a positive normal float with exponent field at least 2 by
`0.5F` subtracts exactly one from the exponent field (`- 2^23`). -/
theorem fmul_half {b : ℕ} (hs : signB b = false) (h1 : 2 ≤ expF b) (h2 : expF b ≤ 254) :
    fmul b half = b - 2 ^ 23 := by
  have hb31 : b < 2 ^ 31 := lt_of_signB_eq_false hs
  have hM : manF b < 2 ^ 23 := Nat.mod_lt _ (by norm_num)
  have hff := fmul_normal b half (by omega) h2 (by decide) (by decide)
  rw [hff, hs]
  have hsh : signB half = false := by decide
  rw [hsh]
  have hxor : xor false false = false := rfl
  rw [hxor]
  have hmh : mag149 half = 2 ^ 148 := by decide
  have hmagb : mag149 b = (2 ^ 23 + manF b) * 2 ^ (expF b - 1) := by
    rw [mag149, if_neg (by omega)]
  rw [hmh, hmagb]
  have hprod : (2 ^ 23 + manF b) * 2 ^ (expF b - 1) * 2 ^ 148 =
      (2 ^ 23 + manF b) * 2 ^ (expF b + 147) := by
    rw [show expF b + 147 = (expF b - 1) + 148 from by omega, pow_add]
    ring
  rw [hprod, encodeRound_exact false hM (by omega) (by omega)]
  have hfld : expF b + 147 + 150 - 298 = expF b - 1 := by omega
  rw [hfld]
  have hdecomp := bits_decomp hb31
  simp only [mkBits, Bool.false_eq_true, if_false]
  omega

theorem mag149_of_fields {x E M : ℕ} (hE : expF x = E) (hM : manF x = M) (h1 : 1 ≤ E) :
    mag149 x = (2 ^ 23 + M) * 2 ^ (E - 1) := by
  rw [mag149, hE, hM, if_neg (by omega)]

/-- C9: exact quarter-scaling.  For a positive normal input with exponent
field in `[2, 252]` (so `4*n` is still normal and `n/2` stays normal) whose
Newton correction factor `1.5 - x2*y*y` stays strictly inside the normal
range (exponent field in `[66, 189]`; this is the claim's "no rounding
boundary is crossed" caveat), multiplying the input by four adds one unit to
the shifted exponent field, leaves the correction factor bit-identical, and
the result of `inv_sqrt` is halved exactly, bit for bit. -/
theorem claim9_quarter_scaling (b : ℕ)
    (hs : signB b = false) (h1 : 2 ≤ expF b) (h2 : expF b ≤ 252)
    (hw1 : 66 ≤ expF (sof b)) (hw2 : expF (sof b) ≤ 189) :
    fmul four b = b + 2 ^ 24 ∧
    y0of (fmul four b) = y0of b - 2 ^ 23 ∧
    sof (fmul four b) = sof b ∧
    inv_sqrt (fmul four b) = inv_sqrt b - 2 ^ 23 ∧
    val (inv_sqrt b) = 2 * val (inv_sqrt (fmul four b)) := by
  have hMAGICv : MAGIC = 1597463007 := rfl
  have hb31 : b < 2 ^ 31 := lt_of_signB_eq_false hs
  have hMb : manF b < 2 ^ 23 := Nat.mod_lt _ (by norm_num)
  have hdec := bits_decomp hb31
  have hbr : 2 * 2 ^ 23 ≤ b ∧ b < 253 * 2 ^ 23 := by omega
  -- (1) multiplying by 4.0F adds two to the exponent field
  have hb4 : fmul four b = b + 2 ^ 24 := fmul_four hs (by omega) h2
  have hb431 : b + 2 ^ 24 < 2 ^ 31 := by omega
  have hfb4 := fields_of (b + 2 ^ 24) (expF b + 2) (manF b) (by omega) hMb (by omega)
  -- (2) halving is exact on both inputs
  have hx2 : x2of b = b - 2 ^ 23 := fmul_half hs h1 (by omega)
  have hx24 : x2of (b + 2 ^ 24) = b + 2 ^ 24 - 2 ^ 23 := by
    rw [x2of, fmul_half hfb4.2.2 (by omega) (by omega)]
  have hfx2 := fields_of (b - 2 ^ 23) (expF b - 1) (manF b) (by omega) hMb (by omega)
  have hfx24 := fields_of (b + 2 ^ 24 - 2 ^ 23) (expF b + 1) (manF b) (by omega) hMb (by omega)
  -- (3) the bit trick shifts by one exponent unit
  have hy0 : y0of b = MAGIC - b / 2 := y0of_eq hb31
  have hy04 : y0of (b + 2 ^ 24) = MAGIC - b / 2 - 2 ^ 23 := by
    rw [y0of_eq hb431]
    omega
  have hi131 : MAGIC - b / 2 < 2 ^ 31 := by omega
  have hi131' : MAGIC - b / 2 - 2 ^ 23 < 2 ^ 31 := by omega
  have hEy : expF (MAGIC - b / 2) = (MAGIC - b / 2) / 2 ^ 23 := by
    simp only [expF]
    omega
  have hMy : manF (MAGIC - b / 2) < 2 ^ 23 := Nat.mod_lt _ (by norm_num)
  have hi1dec := bits_decomp hi131
  have hEyb : 63 ≤ expF (MAGIC - b / 2) ∧ expF (MAGIC - b / 2) ≤ 190 := by
    rw [hEy]
    omega
  have hfy0' := fields_of (MAGIC - b / 2 - 2 ^ 23) (expF (MAGIC - b / 2) - 1)
    (manF (MAGIC - b / 2)) (by omega) hMy (by omega)
  -- magnitudes
  have hmx2 : mag149 (b - 2 ^ 23) = (2 ^ 23 + manF b) * 2 ^ (expF b - 2) := by
    rw [mag149_of_fields hfx2.1 hfx2.2.1 (by omega),
      show expF b - 1 - 1 = expF b - 2 from by omega]
  have hmx24 : mag149 (b + 2 ^ 24 - 2 ^ 23) = (2 ^ 23 + manF b) * 2 ^ (expF b) := by
    rw [mag149_of_fields hfx24.1 hfx24.2.1 (by omega),
      show expF b + 1 - 1 = expF b from by omega]
  have hx2rel : mag149 (b + 2 ^ 24 - 2 ^ 23) = 4 * mag149 (b - 2 ^ 23) := by
    rw [hmx2, hmx24, show (2:ℕ) ^ (expF b) = 2 ^ (expF b - 2) * 2 ^ 2 from by
      rw [← pow_add]
      congr 1
      omega]
    ring
  have hmi1 : mag149 (MAGIC - b / 2) =
      (2 ^ 23 + manF (MAGIC - b / 2)) * 2 ^ (expF (MAGIC - b / 2) - 1) :=
    mag149_of_fields rfl rfl (by omega)
  have hmi1' : mag149 (MAGIC - b / 2 - 2 ^ 23) =
      (2 ^ 23 + manF (MAGIC - b / 2)) * 2 ^ (expF (MAGIC - b / 2) - 2) := by
    rw [mag149_of_fields hfy0'.1 hfy0'.2.1 (by omega),
      show expF (MAGIC - b / 2) - 1 - 1 = expF (MAGIC - b / 2) - 2 from by omega]
  have hy0rel : mag149 (MAGIC - b / 2) = 2 * mag149 (MAGIC - b / 2 - 2 ^ 23) := by
    rw [hmi1, hmi1', show expF (MAGIC - b / 2) - 1 = (expF (MAGIC - b / 2) - 2) + 1 from by
      omega, pow_succ]
    ring
  -- (4) first product of the Newton step
  have hveq : vof b = encodeRound false
      (mag149 (b - 2 ^ 23) * mag149 (MAGIC - b / 2)) (2 ^ 298) := by
    rw [vof, hx2, hy0]
    rw [fmul_normal (b - 2 ^ 23) (MAGIC - b / 2) (by omega) (by omega) (by omega) (by omega)]
    rw [hfx2.2.2, signB_eq_false hi131, Bool.false_xor]
  have hfl1 : -126 ≤ flog2 (mag149 (b - 2 ^ 23) * mag149 (MAGIC - b / 2)) (2 ^ 298) ∧
      flog2 (mag149 (b - 2 ^ 23) * mag149 (MAGIC - b / 2)) (2 ^ 298) ≤ 125 := by
    have hmp := flog2_mag_prod (b - 2 ^ 23) (MAGIC - b / 2)
      (by omega) (by omega) (by omega) (by omega)
    have hjoint : 129 ≤ expF b + expF (MAGIC - b / 2) ∧
        expF b + expF (MAGIC - b / 2) ≤ 379 := by
      rw [hEy]
      omega
    omega
  have hP1pos : 1 ≤ mag149 (b - 2 ^ 23) * mag149 (MAGIC - b / 2) := by
    have b1 := (mag149_bounds (b - 2 ^ 23) (by omega) (by omega)).1
    have b2 := (mag149_bounds (MAGIC - b / 2) (by omega) (by omega)).1
    exact Nat.mul_pos (le_trans Nat.one_le_two_pow b1) (le_trans Nat.one_le_two_pow b2)
  have hv4 : vof (b + 2 ^ 24) = vof b + 2 ^ 23 := by
    rw [vof, hx24, hy04]
    rw [fmul_normal (b + 2 ^ 24 - 2 ^ 23) (MAGIC - b / 2 - 2 ^ 23)
      (by omega) (by omega) (by omega) (by omega)]
    rw [hfx24.2.2, signB_eq_false hi131', Bool.false_xor]
    rw [show mag149 (b + 2 ^ 24 - 2 ^ 23) * mag149 (MAGIC - b / 2 - 2 ^ 23) =
        2 * (mag149 (b - 2 ^ 23) * mag149 (MAGIC - b / 2)) from by
      rw [hx2rel, hy0rel]
      ring]
    rw [encodeRound_double false hP1pos Nat.one_le_two_pow hfl1.1 hfl1.2, hveq]
  -- shape and fields of the first product
  obtain ⟨Ev, Nv, hvmk, hNv, hEv1, hEv2⟩ :=
    encodeRound_shape false hP1pos Nat.one_le_two_pow hfl1.1 hfl1.2
  have hvof_mk : vof b = mkBits false Ev Nv := by rw [hveq, hvmk]
  have hEvr : 1 ≤ Ev ∧ Ev ≤ 253 := by omega
  have hfv : expF (vof b) = Ev ∧ manF (vof b) = Nv ∧ signB (vof b) = false := by
    rw [hvof_mk]
    exact ⟨expF_mkBits _ (by omega) hNv, manF_mkBits _ hNv, signB_mkBits _ (by omega) hNv⟩
  have hv32 : vof b < 2 ^ 32 := by
    rw [hvof_mk]
    exact mkBits_lt _ (by omega) hNv
  have hvsucc := mag149_succE (vof b) (by omega) (by omega) hv32
  -- (5) second product is bit-identical
  have htof4 : tof (b + 2 ^ 24) = tof b := by
    rw [tof, tof, hv4, hy04, hy0]
    rw [fmul_normal (vof b + 2 ^ 23) (MAGIC - b / 2 - 2 ^ 23) (by omega) (by omega)
      (by omega) (by omega)]
    rw [fmul_normal (vof b) (MAGIC - b / 2) (by omega) (by omega) (by omega) (by omega)]
    rw [hvsucc.2.2.1, hfv.2.2, signB_eq_false hi131, signB_eq_false hi131']
    rw [show mag149 (vof b + 2 ^ 23) * mag149 (MAGIC - b / 2 - 2 ^ 23) =
        mag149 (vof b) * mag149 (MAGIC - b / 2) from by
      rw [hvsucc.2.2.2, hy0rel]
      ring]
  -- (6) the correction factor is unchanged
  have hsof4 : sof (b + 2 ^ 24) = sof b := by
    rw [sof, sof, htof4]
  -- (7) the final product halves exactly
  have hfl2 : -126 ≤ flog2 (mag149 (MAGIC - b / 2 - 2 ^ 23) * mag149 (sof b)) (2 ^ 298) ∧
      flog2 (mag149 (MAGIC - b / 2 - 2 ^ 23) * mag149 (sof b)) (2 ^ 298) ≤ 125 := by
    have hmp := flog2_mag_prod (MAGIC - b / 2 - 2 ^ 23) (sof b)
      (by omega) (by omega) (by omega) (by omega)
    omega
  have hP2pos : 1 ≤ mag149 (MAGIC - b / 2 - 2 ^ 23) * mag149 (sof b) := by
    have b1 := (mag149_bounds (MAGIC - b / 2 - 2 ^ 23) (by omega) (by omega)).1
    have b2 := (mag149_bounds (sof b) (by omega) (by omega)).1
    exact Nat.mul_pos (le_trans Nat.one_le_two_pow b1) (le_trans Nat.one_le_two_pow b2)
  have hr : inv_sqrt b = encodeRound (xor false (signB (sof b)))
      (2 * (mag149 (MAGIC - b / 2 - 2 ^ 23) * mag149 (sof b))) (2 ^ 298) := by
    rw [inv_sqrt_eq, hy0]
    rw [fmul_normal (MAGIC - b / 2) (sof b) (by omega) (by omega) (by omega) (by omega)]
    rw [signB_eq_false hi131]
    rw [show mag149 (MAGIC - b / 2) * mag149 (sof b) =
        2 * (mag149 (MAGIC - b / 2 - 2 ^ 23) * mag149 (sof b)) from by
      rw [hy0rel]
      ring]
  have hr4 : inv_sqrt (b + 2 ^ 24) = encodeRound (xor false (signB (sof b)))
      (mag149 (MAGIC - b / 2 - 2 ^ 23) * mag149 (sof b)) (2 ^ 298) := by
    rw [inv_sqrt_eq, hy04, hsof4]
    rw [fmul_normal (MAGIC - b / 2 - 2 ^ 23) (sof b) (by omega) (by omega) (by omega)
      (by omega)]
    rw [signB_eq_false hi131']
  have hhalf : inv_sqrt b = inv_sqrt (b + 2 ^ 24) + 2 ^ 23 := by
    rw [hr, hr4, encodeRound_double _ hP2pos Nat.one_le_two_pow hfl2.1 hfl2.2]
  -- value halving
  obtain ⟨Er, Nr, hrmk, hNr, hEr1, hEr2⟩ :=
    encodeRound_shape (xor false (signB (sof b))) hP2pos Nat.one_le_two_pow hfl2.1 hfl2.2
  have hr4mk : inv_sqrt (b + 2 ^ 24) = mkBits (xor false (signB (sof b))) Er Nr := by
    rw [hr4, hrmk]
  have hfr4 : expF (inv_sqrt (b + 2 ^ 24)) = Er := by
    rw [hr4mk]
    exact expF_mkBits _ (by omega) hNr
  have hr432 : inv_sqrt (b + 2 ^ 24) < 2 ^ 32 := by
    rw [hr4mk]
    exact mkBits_lt _ (by omega) hNr
  have hrsucc := mag149_succE (inv_sqrt (b + 2 ^ 24)) (by omega) (by omega) hr432
  have hvaldouble : val (inv_sqrt b) = 2 * val (inv_sqrt (b + 2 ^ 24)) := by
    have hsgn : signB (inv_sqrt b) = signB (inv_sqrt (b + 2 ^ 24)) := by
      rw [hhalf]
      exact hrsucc.2.2.1
    have hmag : mag149 (inv_sqrt b) = 2 * mag149 (inv_sqrt (b + 2 ^ 24)) := by
      rw [hhalf]
      exact hrsucc.2.2.2
    exact val_twice hsgn hmag
  refine ⟨hb4, ?_, ?_, ?_, ?_⟩
  · rw [hb4, hy04, hy0]
  · rw [hb4, hsof4]
  · rw [hb4]
    omega
  · rw [hb4, hvaldouble]

theorem claim9_witness :
    signB 0x3F800000 = false ∧ 2 ≤ expF 0x3F800000 ∧ expF 0x3F800000 ≤ 252 ∧
    66 ≤ expF (sof 0x3F800000) ∧ expF (sof 0x3F800000) ≤ 189 ∧
    (fmul four 0x3F800000 = 0x3F800000 + 2 ^ 24 ∧
      y0of (fmul four 0x3F800000) = y0of 0x3F800000 - 2 ^ 23 ∧
      sof (fmul four 0x3F800000) = sof 0x3F800000 ∧
      inv_sqrt (fmul four 0x3F800000) = inv_sqrt 0x3F800000 - 2 ^ 23 ∧
      val (inv_sqrt 0x3F800000) = 2 * val (inv_sqrt (fmul four 0x3F800000))) :=
  ⟨by decide, by decide, by decide, by decide, by decide,
    claim9_quarter_scaling 0x3F800000 (by decide) (by decide) (by decide)
      (by decide) (by decide)⟩

end CRZLib
